import Mathlib

/-!
Verification of the retrieval/rerank/assembly core of the lappie repository.

The development shallowly embeds the Python sources
`backend/file_searcher/src/file_searcher/chunker.py`,
`backend/file_searcher/src/file_searcher/reranker.py`,
`backend/file_searcher/src/file_searcher/qa_development.py` and
`backend/api/file_search_endpoints.py`.  Python strings are modelled as lists
of characters; the external text-generation service and the external JSON
parser are universally quantified function parameters; Python exceptions are
modelled with `Except`.
-/

namespace FileSearcher

/-- Python strings are modelled as lists of characters (code points). -/
abbrev PyStr := List Char

/-- Turn a Lean string literal into its character list. -/
def pys (s : String) : PyStr := s.data

/-- Python whitespace test (`str.split`, `str.strip` default separators),
restricted to the ASCII whitespace characters. -/
def pyIsSpace (c : Char) : Bool :=
  c == ' ' || c == '\t' || c == '\n' || c == '\r' || c == '\x0b' || c == '\x0c'

/-- Python `str.lstrip()`. -/
def pyLstrip (s : PyStr) : PyStr := s.dropWhile pyIsSpace

/-- Python `str.rstrip()`. -/
def pyRstrip (s : PyStr) : PyStr := (s.reverse.dropWhile pyIsSpace).reverse

/-- Python `str.strip()`. -/
def pyStrip (s : PyStr) : PyStr := pyRstrip (pyLstrip s)

/-- Python `text.split("\n")` (keeps empty pieces; the split of the empty
string is a single empty piece). -/
def splitLines : PyStr → List PyStr
  | [] => [[]]
  | c :: rest =>
    if c = '\n' then [] :: splitLines rest
    else
      match splitLines rest with
      | [] => [[c]]
      | l :: ls => (c :: l) :: ls

/-- Python `sep.join(xs)`. -/
def joinWith (sep : PyStr) : List PyStr → PyStr
  | [] => []
  | [w] => w
  | w :: ws => w ++ sep ++ joinWith sep ws

/-- Python `text.replace(crlf, "\n")` where `crlf` is a carriage return
followed by a newline (left-to-right, non-overlapping). -/
def replaceCRLF : PyStr → PyStr
  | '\r' :: '\n' :: rest => '\n' :: replaceCRLF rest
  | c :: rest => c :: replaceCRLF rest
  | [] => []

/-- Python `text.replace("\r", "\n")`. -/
def replaceCR (s : PyStr) : PyStr := s.map fun c => if c = '\r' then '\n' else c

/-- `_normalize_text` from chunker.py: normalize newlines, then strip trailing
whitespace of every line. -/
def normalize_text (t : PyStr) : PyStr :=
  joinWith (pys "\n") ((splitLines (replaceCR (replaceCRLF t))).map pyRstrip)

/-- The word-accumulating loop behind `str.split()`: `cur` holds the
characters of the word being built, most recent first. -/
def pySplitAux : PyStr → PyStr → List PyStr
  | [], cur => if cur = [] then [] else [cur.reverse]
  | c :: rest, cur =>
    if pyIsSpace c then
      if cur = [] then pySplitAux rest [] else cur.reverse :: pySplitAux rest []
    else pySplitAux rest (c :: cur)

/-- Python `str.split()` with no separator: split on runs of whitespace,
dropping empty pieces. -/
def pySplit (s : PyStr) : List PyStr := pySplitAux s []

/-- The accumulator loop of `_split_into_paragraphs` from chunker.py:
`current` holds the stripped non-blank lines of the paragraph being built. -/
def splitParasAux (current : List PyStr) : List PyStr → List PyStr
  | [] => if current = [] then [] else [pyStrip (joinWith (pys " ") current)]
  | line :: rest =>
    if pyStrip line = [] then
      if current = [] then splitParasAux [] rest
      else pyStrip (joinWith (pys " ") current) :: splitParasAux [] rest
    else splitParasAux (current ++ [pyStrip line]) rest

/-- `_split_into_paragraphs` from chunker.py: split on blank lines, join the
lines of each paragraph with single spaces. -/
def split_into_paragraphs (s : PyStr) : List PyStr := splitParasAux [] (splitLines s)

/-- `ChunkMetadata` from chunker.py. -/
structure ChunkMetadata where
  chunk_index : Nat
  start_char : Nat
  end_char : Nat
  source_id : Option PyStr
  deriving DecidableEq, Repr

/-- `TextChunk` from chunker.py. -/
structure TextChunk where
  content : PyStr
  metadata : ChunkMetadata
  deriving DecidableEq, Repr

/-- Python `x or d` for `x : Optional[int]`: both `None` and `0` are falsy. -/
def pyOr (x : Option Nat) (d : Nat) : Nat :=
  match x with
  | none => d
  | some v => if v = 0 then d else v

/-- The chunk content computed by the flush and slice steps of
`split_text_into_chunks`: `" ".join(words).strip()`. -/
def wordsContent (ws : List PyStr) : PyStr := pyStrip (joinWith (pys " ") ws)

/-- Well-formedness of a word buffer: every word is non-empty and contains no
whitespace character.  `str.split()` only produces such words. -/
def goodWords (ws : List PyStr) : Prop :=
  ∀ w ∈ ws, w ≠ [] ∧ ∀ c ∈ w, pyIsSpace c = false

/-- The mutable state of the chunking loop of `split_text_into_chunks`. -/
structure ChunkState where
  chunks : List TextChunk
  chunkIndex : Nat
  currentWords : List PyStr
  currentStart : Option Nat
  currentEnd : Option Nat
  deriving Repr

/-- The `flush_current_chunk` closure from chunker.py.  It resets only
`current_words`; `current_start_char` and `current_end_char` are left as they
were, and nothing at all changes when the joined content strips to empty. -/
def flush_current_chunk (sourceId : Option PyStr) (s : ChunkState) : ChunkState :=
  if s.currentWords = [] then s
  else
    let content := wordsContent s.currentWords
    if content = [] then s
    else
      let startc := pyOr s.currentStart 0
      let meta : ChunkMetadata :=
        { chunk_index := s.chunkIndex
          start_char := startc
          end_char := pyOr s.currentEnd (startc + content.length)
          source_id := sourceId }
      { s with
        chunks := s.chunks ++ [{ content := content, metadata := meta }]
        chunkIndex := s.chunkIndex + 1
        currentWords := [] }

/-- One iteration of the in-paragraph overflow `while` loop of
`split_text_into_chunks`: emit the first `max_words` words as a chunk, then
keep the last `overlap_words` of that slice plus the rest as the new buffer.
Python list slicing is modelled by `take`/`drop`, which coincides with it on
the modelled parameter range `overlap_words ≤ max_words`. -/
def sliceStep (maxWords overlapWords : Nat) (sourceId : Option PyStr)
    (s : ChunkState) : ChunkState :=
  let sliceWords := s.currentWords.take maxWords
  let sliceContent := wordsContent sliceWords
  let s1 :=
    if sliceContent = [] then s
    else
      let startc := pyOr s.currentStart 0
      let meta : ChunkMetadata :=
        { chunk_index := s.chunkIndex
          start_char := startc
          end_char := pyOr s.currentEnd (startc + sliceContent.length)
          source_id := sourceId }
      { s with
        chunks := s.chunks ++ [{ content := sliceContent, metadata := meta }]
        chunkIndex := s.chunkIndex + 1 }
  { s1 with
    currentWords :=
      (s.currentWords.take maxWords).drop (maxWords - overlapWords) ++
        s.currentWords.drop maxWords }

/-- The `while len(current_words) > max_words` loop of
`split_text_into_chunks`, with explicit fuel.  For
`overlap_words < max_words` each iteration strictly shrinks the buffer, so
fuel `current_words.length` always suffices (proved below). -/
def overflowLoop (maxWords overlapWords : Nat) (sourceId : Option PyStr) :
    Nat → ChunkState → ChunkState
  | 0, s => s
  | fuel + 1, s =>
    if maxWords < s.currentWords.length then
      overflowLoop maxWords overlapWords sourceId fuel
        (sliceStep maxWords overlapWords sourceId s)
    else s

/-- The body of the paragraph loop of `split_text_into_chunks`: maybe flush,
fix the start offset of a fresh chunk, append the paragraph words, record the
end offset, then run the overflow loop. -/
def paragraphStep (maxWords overlapWords : Nat) (sourceId : Option PyStr)
    (s : ChunkState) (para : PyStr) (paraStart : Nat) : ChunkState :=
  let words := pySplit para
  let s1 :=
    if s.currentWords ≠ [] ∧ maxWords < s.currentWords.length + words.length then
      flush_current_chunk sourceId s
    else s
  let s2 := if s1.currentWords = [] then { s1 with currentStart := some paraStart } else s1
  let s3 := { s2 with
    currentWords := s2.currentWords ++ words
    currentEnd := some (paraStart + para.length) }
  overflowLoop maxWords overlapWords sourceId s3.currentWords.length s3

/-- Paragraph start offsets in the reconstructed text (one separator character
between consecutive paragraphs). -/
def paraOffsets (pos : Nat) : List PyStr → List Nat
  | [] => []
  | p :: rest => pos :: paraOffsets (pos + p.length + 1) rest

/-- `split_text_into_chunks` from chunker.py. -/
def split_text_into_chunks (text : PyStr) (maxWords overlapWords : Nat)
    (sourceId : Option PyStr) : List TextChunk :=
  let normText := normalize_text text
  let paragraphs := split_into_paragraphs normText
  let offsets := paraOffsets 0 paragraphs
  let finalState :=
    (paragraphs.zip offsets).foldl
      (fun s po => paragraphStep maxWords overlapWords sourceId s po.fst po.snd)
      { chunks := [], chunkIndex := 0, currentWords := [],
        currentStart := none, currentEnd := none }
  (flush_current_chunk sourceId finalState).chunks

/-- The successive word buffers of the overflow loop, as a list of windows:
each step emits the first `max_words` words and the final entry is the
remaining buffer.  Used to state properties of the loop. -/
def windowsFuel (maxWords overlapWords : Nat) : Nat → List PyStr → List (List PyStr)
  | 0, ws => [ws]
  | fuel + 1, ws =>
    if maxWords < ws.length then
      ws.take maxWords ::
        windowsFuel maxWords overlapWords fuel
          ((ws.take maxWords).drop (maxWords - overlapWords) ++ ws.drop maxWords)
    else [ws]

/-- All overflow windows of a word list. -/
def windows (maxWords overlapWords : Nat) (ws : List PyStr) : List (List PyStr) :=
  windowsFuel maxWords overlapWords ws.length ws

/-- Decimal rendering of a natural number. -/
def natToChars (n : Nat) : PyStr := Nat.toDigits 10 n

/-- Python `str(i)` for an integer. -/
def intToChars (i : Int) : PyStr :=
  if i < 0 then '-' :: natToChars i.natAbs else natToChars i.natAbs

/-- The collapse/strip/truncate step shared by `build_rerank_prompt`,
`build_context_from_rows`, `build_context_from_reranked` and the snippet
fields of `file_search_qa`: take `content.strip().replace("\n", " ")` and
truncate it to `maxChars` characters, appending an ellipsis marker when
truncation happened. -/
def makeSnippet (maxChars : Nat) (content : PyStr) : PyStr :=
  let snippet := (pyStrip content).map fun c => if c = '\n' then ' ' else c
  if maxChars < snippet.length then snippet.take maxChars ++ pys "..." else snippet

/-- `CandidateChunk` from reranker.py.  The `score` float is never computed
with anywhere in the embedded code, only carried along and rendered with
three decimals; it is therefore modelled opaquely by that rendering. -/
structure CandidateChunk where
  id : Int
  rank : Int
  score : PyStr
  file_name : PyStr
  chunk_index : Int
  content : PyStr
  deriving DecidableEq, Repr

/-- An element of the JSON array returned by the reranking model, abstracted:
either a JSON integer or any other JSON value. -/
inductive PyJsonItem where
  | jint (n : Int)
  | jother
  deriving DecidableEq, Repr

/-- The outcome of `json.loads(raw)` followed by the `isinstance(data, list)`
check in `_parse_id_list`: `none` when `raw` is not valid JSON or is JSON but
not a list, otherwise the list items. -/
abbrev ParsedResponse := Option (List PyJsonItem)

/-- The filter inside `_parse_id_list`: keep integer items within
`[1, max_id]`, dropping everything else. -/
def keepInRange (data : List PyJsonItem) (maxId : Nat) : List Int :=
  data.filterMap fun item =>
    match item with
    | .jint n => if 1 ≤ n ∧ n ≤ (maxId : Int) then some n else none
    | .jother => none

/-- The duplicate-removal loop of `_parse_id_list` (a `seen` set, keeping
first occurrences). -/
def dedupKeepFirst (seen : List Int) : List Int → List Int
  | [] => []
  | i :: rest =>
    if i ∈ seen then dedupKeepFirst seen rest
    else i :: dedupKeepFirst (i :: seen) rest

/-- `list(range(1, max_id + 1))` as integers. -/
def identityOrder (maxId : Nat) : List Int :=
  List.map (fun n : Nat => (n : Int)) (List.range' 1 maxId)

/-- `_parse_id_list` from reranker.py: keep in-range integers, de-duplicate;
on a non-list response or an empty filtered list fall back to the identity
ordering. -/
def parse_id_list (parsed : ParsedResponse) (maxId : Nat) : List Int :=
  match parsed with
  | none => identityOrder maxId
  | some data =>
    let ids := keepInRange data maxId
    if ids = [] then identityOrder maxId else dedupKeepFirst [] ids

/-- Lookup in the Python dict `{c.id: c for c in candidates}`; with duplicate
ids the later entry wins, hence the last match. -/
def dictGet (candidates : List CandidateChunk) (cid : Int) : Option CandidateChunk :=
  (candidates.filter fun c => c.id == cid).getLast?

/-- The `reranked` list built inside `rerank_candidates`: look every parsed
id up in the dict, ignoring ids that do not exist. -/
def rerankedList (parsed : ParsedResponse) (candidates : List CandidateChunk) :
    List CandidateChunk :=
  (parse_id_list parsed candidates.length).filterMap (dictGet candidates)

/-- The pure reordering logic of `rerank_candidates` from reranker.py, given
the already-parsed response: when items were lost, append the remaining
candidates (`not in` is Python value inequality) in their original order. -/
def rerank_core (parsed : ParsedResponse) (candidates : List CandidateChunk) :
    List CandidateChunk :=
  if candidates = [] then []
  else if (rerankedList parsed candidates).length < candidates.length then
    rerankedList parsed candidates ++
      candidates.filter (fun c => decide (¬ c ∈ rerankedList parsed candidates))
  else rerankedList parsed candidates

/-- `build_rerank_prompt` from reranker.py. -/
def build_rerank_prompt (question : PyStr) (candidates : List CandidateChunk) : PyStr :=
  let blocks := candidates.map fun c =>
    pys "ID: " ++ intToChars c.id ++ pys "\n" ++
    pys "OriginalRank: " ++ intToChars c.rank ++ pys "\n" ++
    pys "OriginalScore: " ++ c.score ++ pys "\n" ++
    pys "File: " ++ c.file_name ++ pys "\n" ++
    pys "ChunkIndex: " ++ intToChars c.chunk_index ++ pys "\n" ++
    pys "Text: " ++ makeSnippet 400 c.content ++ pys "\n"
  let candidatesText := joinWith (pys "\n\n") blocks
  pys "You are a reranking assistant.\n\nYou are given a QUESTION and a list of CANDIDATE text chunks.\nYour task is to rank the chunks from most relevant to least relevant to answer the QUESTION.\n\nReturn ONLY a JSON array of candidate IDs in best-first order.\nDo NOT include any other text.\nExample: [3, 1, 2]\n\nQUESTION:\n" ++
    question ++ pys "\n\nCANDIDATES:\n" ++ candidatesText ++ pys "\n"

/-- The `RuntimeError` cases raised by `call_ollama_chat` in qa_development.py:
transport failure of the request, a non-200 status, or a response without
message content. -/
inductive OllamaError where
  | requestFailed
  | badStatus (code : Int)
  | missingContent
  deriving DecidableEq, Repr

/-- `rerank_candidates` from reranker.py with its effects explicit: the single
`call_ollama_chat` call is a fallible function `chat` (a raised
`RuntimeError` is `Except.error`) and the external JSON parse of the raw
response is `jsonLoads`.  There is no handler around the call, so its error
passes through `bind` unchanged. -/
def rerank_candidatesE (question : PyStr) (candidates : List CandidateChunk)
    (chat : PyStr → Except OllamaError PyStr) (jsonLoads : PyStr → ParsedResponse) :
    Except OllamaError (List CandidateChunk) :=
  if candidates = [] then .ok []
  else
    (chat (build_rerank_prompt question candidates)).bind fun raw =>
      .ok (rerank_core (jsonLoads raw) candidates)

/-- `rerank_candidates` with an always-succeeding chat function, paired with
the number of text-generation calls it makes (zero on the early return for an
empty candidate list, otherwise exactly one). -/
def rerank_candidatesCounted (question : PyStr) (candidates : List CandidateChunk)
    (chat : PyStr → PyStr) (jsonLoads : PyStr → ParsedResponse) :
    List CandidateChunk × Nat :=
  if candidates = [] then ([], 0)
  else
    (rerank_core (jsonLoads (chat (build_rerank_prompt question candidates))) candidates, 1)

/-- A row returned by `search_development`:
`(rank, score, file_name, chunk_index, content)`.  The float score is again
modelled opaquely by its three-decimal rendering. -/
structure Row where
  rank : Int
  scoreStr : PyStr
  file_name : PyStr
  chunk_index : Int
  content : PyStr
  deriving DecidableEq, Repr

/-- The citation header of a block of `build_context_from_rows`. -/
def rowHeader (r : Row) : PyStr :=
  pys "[" ++ intToChars r.rank ++ pys "] (score=" ++ r.scoreStr ++
    pys ", file=" ++ r.file_name ++ pys ", chunk=" ++ intToChars r.chunk_index ++ pys ")"

/-- One block of `build_context_from_rows`: the citation header line followed
by the collapsed, stripped and truncated content. -/
def rowBlock (maxCharsPerChunk : Nat) (r : Row) : PyStr :=
  rowHeader r ++ pys "\n" ++ makeSnippet maxCharsPerChunk r.content

/-- `build_context_from_rows` from qa_development.py. -/
def build_context_from_rows (rows : List Row) (maxCharsPerChunk : Nat) : PyStr :=
  joinWith (pys "\n\n") (rows.map (rowBlock maxCharsPerChunk))

/-- `build_prompt` from qa_development.py. -/
def build_prompt (question context : PyStr) : PyStr :=
  pys "You are a helpful assistant answering questions about documents.\n\nUse ONLY the information in the CONTEXT below to answer the QUESTION.\nIf the answer is not clearly contained in the context, say you do not know.\n\nCONTEXT:\n" ++
    context ++ pys "\n\nQUESTION:\n" ++ question ++
    pys "\n\nAnswer concisely in a few sentences.\n"

/-- `FileQAContextChunk` from file_search_endpoints.py. -/
structure FileQAContextChunk where
  id : Int
  orig_rank : Int
  orig_score : PyStr
  file_name : PyStr
  chunk_index : Int
  snippet : PyStr
  deriving DecidableEq, Repr

/-- `FileQAResponse` from file_search_endpoints.py. -/
structure FileQAResponse where
  answer : PyStr
  context : List FileQAContextChunk
  deriving DecidableEq, Repr

/-- Candidate construction in the rerank path of `file_search_qa` (also in
`answer_question_with_rerank`): `enumerate(rows, start=1)`. -/
def candidatesOfRows (rows : List Row) : List CandidateChunk :=
  rows.enum.map fun p =>
    { id := (p.fst : Int) + 1
      rank := p.snd.rank
      score := p.snd.scoreStr
      file_name := p.snd.file_name
      chunk_index := p.snd.chunk_index
      content := p.snd.content }

/-- `file_search_qa` from file_search_endpoints.py, with the retrieval result
`rows` (what `search_development` returned), the generation service `chat`
and the external JSON parse `jsonLoads` as inputs.  The second component
counts the calls made to the generation service. -/
def file_search_qa (useRerank : Bool) (question : PyStr) (topKFinal : Nat)
    (rows : List Row) (chat : PyStr → PyStr) (jsonLoads : PyStr → ParsedResponse) :
    FileQAResponse × Nat :=
  if useRerank then
    if rows = [] then ({ answer := pys "No relevant context found.", context := [] }, 0)
    else
      let candidates := candidatesOfRows rows
      let rr := rerank_candidatesCounted question candidates chat jsonLoads
      let selected := rr.fst.take topKFinal
      let fakeRows : List Row := selected.map fun c =>
        { rank := c.rank, scoreStr := c.score, file_name := c.file_name,
          chunk_index := c.chunk_index, content := c.content }
      let contextStr := build_context_from_rows fakeRows 700
      let answer := chat (build_prompt question contextStr)
      let contextChunks : List FileQAContextChunk := selected.map fun c =>
        { id := c.id, orig_rank := c.rank, orig_score := c.score,
          file_name := c.file_name, chunk_index := c.chunk_index,
          snippet := makeSnippet 140 c.content }
      ({ answer := pyStrip answer, context := contextChunks }, rr.snd + 1)
  else
    if rows = [] then ({ answer := pys "No relevant context found.", context := [] }, 0)
    else
      let contextStr := build_context_from_rows rows 700
      let answer := chat (build_prompt question contextStr)
      let contextChunks : List FileQAContextChunk := rows.map fun r =>
        { id := r.rank, orig_rank := r.rank, orig_score := r.scoreStr,
          file_name := r.file_name, chunk_index := r.chunk_index,
          snippet := makeSnippet 140 r.content }
      ({ answer := pyStrip answer, context := contextChunks }, 1)

/-- The filtered, de-duplicated id list of `_parse_id_list` on a successfully
parsed JSON list. -/
def parsedIds (data : List PyJsonItem) (maxId : Nat) : List Int :=
  dedupKeepFirst [] (keepInRange data maxId)

/-- A concrete candidate used by witnesses. -/
def sampleCand (i : Int) : CandidateChunk :=
  { id := i, rank := i, score := pys "0.500", file_name := pys "doc.txt",
    chunk_index := i, content := pys "chunk body" }

/-- A concrete retrieval row used by witnesses and counterexamples. -/
def sampleRow : Row :=
  { rank := 1, scoreStr := pys "0.500", file_name := pys "f",
    chunk_index := 0, content := pys "abcdef" }

lemma identityOrder_nodup (n : Nat) : (identityOrder n).Nodup := by
  unfold identityOrder
  refine List.Nodup.map ?_ (List.nodup_range' 1 n)
  intro a b h
  simpa using h

lemma dedupKeepFirst_subset : ∀ (l seen : List Int), ∀ x ∈ dedupKeepFirst seen l, x ∈ l := by
  intro l
  induction l with
  | nil => intro seen x hx; simp [dedupKeepFirst] at hx
  | cons i rest ih =>
    intro seen x hx
    unfold dedupKeepFirst at hx
    by_cases h : i ∈ seen
    · rw [if_pos h] at hx
      exact List.mem_cons_of_mem _ (ih seen x hx)
    · rw [if_neg h] at hx
      rcases List.mem_cons.mp hx with rfl | hx
      · exact List.mem_cons_self _ _
      · exact List.mem_cons_of_mem _ (ih _ x hx)

lemma dedupKeepFirst_nodup : ∀ (l seen : List Int),
    (dedupKeepFirst seen l).Nodup ∧ ∀ x ∈ dedupKeepFirst seen l, x ∉ seen := by
  intro l
  induction l with
  | nil => intro seen; simp [dedupKeepFirst]
  | cons i rest ih =>
    intro seen
    unfold dedupKeepFirst
    by_cases h : i ∈ seen
    · rw [if_pos h]; exact ih seen
    · rw [if_neg h]
      obtain ⟨hnd, hns⟩ := ih (i :: seen)
      refine ⟨List.nodup_cons.mpr ⟨fun hmem => ?_, hnd⟩, ?_⟩
      · exact hns i hmem (List.mem_cons_self i seen)
      · intro x hx
        rcases List.mem_cons.mp hx with rfl | hx
        · exact h
        · intro hxs
          exact hns x hx (List.mem_cons_of_mem _ hxs)

lemma parse_id_list_nodup (parsed : ParsedResponse) (n : Nat) :
    (parse_id_list parsed n).Nodup := by
  cases parsed with
  | none => exact identityOrder_nodup n
  | some data =>
    simp only [parse_id_list]
    by_cases h : keepInRange data n = []
    · rw [if_pos h]; exact identityOrder_nodup n
    · rw [if_neg h]; exact (dedupKeepFirst_nodup _ []).1

lemma dictGet_eq_some {cs : List CandidateChunk} {cid : Int} {c : CandidateChunk}
    (h : dictGet cs cid = some c) : c ∈ cs ∧ c.id = cid := by
  unfold dictGet at h
  have hm := List.mem_of_getLast?_eq_some h
  rcases List.mem_filter.mp hm with ⟨hmem, hid⟩
  exact ⟨hmem, by simpa using hid⟩

lemma rerankedList_subset (parsed : ParsedResponse) (cs : List CandidateChunk) :
    rerankedList parsed cs ⊆ cs := by
  intro c hc
  rcases List.mem_filterMap.mp hc with ⟨i, _, hg⟩
  exact (dictGet_eq_some hg).1

lemma rerankedList_nodup (parsed : ParsedResponse) (cs : List CandidateChunk) :
    (rerankedList parsed cs).Nodup := by
  apply List.Nodup.filterMap ?_ (parse_id_list_nodup parsed cs.length)
  intro a a' b hb hb'
  have h1 := (dictGet_eq_some (Option.mem_def.mp hb)).2
  have h2 := (dictGet_eq_some (Option.mem_def.mp hb')).2
  rw [← h1, ← h2]

lemma rerank_core_perm (parsed : ParsedResponse) (cs : List CandidateChunk)
    (hnodup : (cs.map CandidateChunk.id).Nodup) :
    (rerank_core parsed cs).Perm cs := by
  by_cases hcs : cs = []
  · subst hcs; simp [rerank_core]
  · unfold rerank_core
    rw [if_neg hcs]
    have hcnd : cs.Nodup := List.Nodup.of_map _ hnodup
    have hsub := rerankedList_subset parsed cs
    have hrnd := rerankedList_nodup parsed cs
    by_cases hlen : (rerankedList parsed cs).length < cs.length
    · rw [if_pos hlen]
      have hfnd : (cs.filter fun c => decide (¬ c ∈ rerankedList parsed cs)).Nodup :=
        hcnd.filter _
      have hdisj : (rerankedList parsed cs).Disjoint
          (cs.filter fun c => decide (¬ c ∈ rerankedList parsed cs)) := by
        intro a ha haf
        have h2 := (List.mem_filter.mp haf).2
        simp only [decide_eq_true_eq] at h2
        exact h2 ha
      apply (List.perm_ext_iff_of_nodup (hrnd.append hfnd hdisj) hcnd).mpr
      intro a
      constructor
      · intro ha
        rcases List.mem_append.mp ha with h | h
        · exact hsub h
        · exact (List.mem_filter.mp h).1
      · intro ha
        by_cases har : a ∈ rerankedList parsed cs
        · exact List.mem_append.mpr (Or.inl har)
        · refine List.mem_append.mpr (Or.inr (List.mem_filter.mpr ⟨ha, ?_⟩))
          simpa using har
    · rw [if_neg hlen]
      exact (hrnd.subperm hsub).perm_of_length_le (Nat.le_of_not_lt hlen)

/-- C1: For every non-empty candidate list whose local ids are exactly the
distinct integers 1..N, and for every response of the text-generation service
(any raw string, parsed by the external JSON parser in any way, garbage
included), `rerank_candidates` returns a permutation of its input, so its
output has the same length and the same multiset of local ids as the
input. -/
theorem rerank_candidates_permutation (question : PyStr) (cs : List CandidateChunk)
    (chat : PyStr → PyStr) (jsonLoads : PyStr → ParsedResponse)
    (hne : cs ≠ [])
    (hids : (cs.map CandidateChunk.id).Perm (identityOrder cs.length)) :
    ((rerank_candidatesCounted question cs chat jsonLoads).fst).Perm cs := by
  have hnd : (cs.map CandidateChunk.id).Nodup :=
    hids.nodup_iff.mpr (identityOrder_nodup cs.length)
  unfold rerank_candidatesCounted
  rw [if_neg hne]
  exact rerank_core_perm _ cs hnd

/-- Witness for C1 at a concrete two-candidate list and a garbage response. -/
theorem rerank_candidates_permutation_witness :
    ([sampleCand 1, sampleCand 2] ≠ ([] : List CandidateChunk)) ∧
    (([sampleCand 1, sampleCand 2].map CandidateChunk.id).Perm (identityOrder 2)) ∧
    ((rerank_candidatesCounted (pys "q") [sampleCand 1, sampleCand 2]
      (fun _ => pys "garbage") (fun _ => none)).fst).Perm [sampleCand 1, sampleCand 2] :=
  ⟨by decide, by decide,
    rerank_candidates_permutation (pys "q") [sampleCand 1, sampleCand 2]
      (fun _ => pys "garbage") (fun _ => none) (by decide) (by decide)⟩

lemma dictGet_cons_of_ne {c : CandidateChunk} {rest : List CandidateChunk} {i : Int}
    (h : c.id ≠ i) : dictGet (c :: rest) i = dictGet rest i := by
  unfold dictGet
  rw [List.filter_cons]
  simp [h]

lemma dictGet_cons_self {c : CandidateChunk} {rest : List CandidateChunk} {i : Int}
    (hc : c.id = i) (hrest : ∀ r ∈ rest, r.id ≠ i) : dictGet (c :: rest) i = some c := by
  unfold dictGet
  have hfr : rest.filter (fun r => r.id == i) = [] :=
    List.filter_eq_nil_iff.mpr fun r hr => by simpa using hrest r hr
  rw [List.filter_cons]
  simp [hc, hfr]

lemma filterMap_dictGet_range : ∀ (cs : List CandidateChunk) (k : Nat),
    cs.map CandidateChunk.id =
      List.map (fun n : Nat => (n : Int)) (List.range' k cs.length) →
    (List.map (fun n : Nat => (n : Int)) (List.range' k cs.length)).filterMap (dictGet cs) =
      cs := by
  intro cs
  induction cs with
  | nil => intro k _; simp
  | cons c rest ih =>
    intro k h
    rw [List.length_cons, List.range'_succ] at h ⊢
    simp only [List.map_cons] at h ⊢
    have hc : c.id = (k : Int) := (List.cons.injEq _ _ _ _ ▸ h).1
    have hrest : rest.map CandidateChunk.id =
        List.map (fun n : Nat => (n : Int)) (List.range' (k + 1) rest.length) :=
      (List.cons.injEq _ _ _ _ ▸ h).2
    have hid_ge : ∀ r ∈ rest, ∃ m : Nat, r.id = (m : Int) ∧ k + 1 ≤ m := by
      intro r hr
      have : r.id ∈ rest.map CandidateChunk.id := List.mem_map_of_mem _ hr
      rw [hrest] at this
      rcases List.mem_map.mp this with ⟨m, hm, hme⟩
      exact ⟨m, hme.symm, (List.mem_range'_1.mp hm).1⟩
    have hne : ∀ r ∈ rest, r.id ≠ (k : Int) := by
      intro r hr heq
      rcases hid_ge r hr with ⟨m, hme, hmk⟩
      rw [hme] at heq
      have : m = k := by exact_mod_cast heq
      omega
    rw [List.filterMap_cons, dictGet_cons_self hc hne]
    have hcongr :
        (List.map (fun n : Nat => (n : Int)) (List.range' (k + 1) rest.length)).filterMap
            (dictGet (c :: rest)) =
          (List.map (fun n : Nat => (n : Int)) (List.range' (k + 1) rest.length)).filterMap
            (dictGet rest) := by
      apply List.filterMap_congr
      intro i hi
      rcases List.mem_map.mp hi with ⟨m, hm, rfl⟩
      have hkm := (List.mem_range'_1.mp hm).1
      apply dictGet_cons_of_ne
      rw [hc]
      intro heq
      have : k = m := by exact_mod_cast heq
      omega
    rw [hcongr, ih (k + 1) hrest]

lemma filterMap_dictGet_identity (cs : List CandidateChunk)
    (hids : cs.map CandidateChunk.id = identityOrder cs.length) :
    (identityOrder cs.length).filterMap (dictGet cs) = cs :=
  filterMap_dictGet_range cs 1 hids

/-- C2: For every non-empty candidate list with local ids 1..N in input
order, if the reranker response is not valid JSON or not a JSON list
(`jsonLoads raw = none`), or parses to a list whose in-range integer filter
is empty, then `rerank_candidates` returns the candidates in exactly their
input order and raises nothing (the overall result is `Except.ok`). -/
theorem rerank_candidates_identity_fallback (question : PyStr)
    (cs : List CandidateChunk) (chatE : PyStr → Except OllamaError PyStr)
    (jsonLoads : PyStr → ParsedResponse) (raw : PyStr)
    (hne : cs ≠ [])
    (hids : cs.map CandidateChunk.id = identityOrder cs.length)
    (hok : chatE (build_rerank_prompt question cs) = Except.ok raw)
    (hbad : jsonLoads raw = none ∨
      ∃ data, jsonLoads raw = some data ∧ keepInRange data cs.length = []) :
    rerank_candidatesE question cs chatE jsonLoads = Except.ok cs := by
  unfold rerank_candidatesE
  rw [if_neg hne, hok]
  have hparse : parse_id_list (jsonLoads raw) cs.length = identityOrder cs.length := by
    rcases hbad with h | ⟨data, hdata, hkeep⟩
    · rw [h]; rfl
    · rw [hdata]
      simp only [parse_id_list]
      rw [if_pos hkeep]
  have hrr : rerankedList (jsonLoads raw) cs = cs := by
    unfold rerankedList
    rw [hparse]
    exact filterMap_dictGet_identity cs hids
  have hcore : rerank_core (jsonLoads raw) cs = cs := by
    unfold rerank_core
    rw [if_neg hne, hrr]
    simp
  show Except.ok (rerank_core (jsonLoads raw) cs) = Except.ok cs
  rw [hcore]

/-- Witness for C2 at three candidates and a non-JSON response. -/
theorem rerank_candidates_identity_fallback_witness :
    rerank_candidatesE (pys "q") [sampleCand 1, sampleCand 2, sampleCand 3]
      (fun _ => Except.ok (pys "not json")) (fun _ => none) =
      Except.ok [sampleCand 1, sampleCand 2, sampleCand 3] :=
  rerank_candidates_identity_fallback (pys "q")
    [sampleCand 1, sampleCand 2, sampleCand 3]
    (fun _ => Except.ok (pys "not json")) (fun _ => none) (pys "not json")
    (by decide) (by decide) rfl (Or.inl rfl)

/-- C3: If the single text-generation call inside `rerank_candidates` fails
at the transport level (the `RuntimeError` raised by `call_ollama_chat`),
that error propagates unchanged to the caller of `rerank_candidates`; it is
not converted into the identity-order fallback. -/
theorem rerank_candidates_transport_error (question : PyStr)
    (cs : List CandidateChunk) (chatE : PyStr → Except OllamaError PyStr)
    (jsonLoads : PyStr → ParsedResponse) (e : OllamaError)
    (hne : cs ≠ [])
    (herr : chatE (build_rerank_prompt question cs) = Except.error e) :
    rerank_candidatesE question cs chatE jsonLoads = Except.error e := by
  unfold rerank_candidatesE
  rw [if_neg hne, herr]
  rfl

/-- Witness for C3 at one candidate and an unreachable service. -/
theorem rerank_candidates_transport_error_witness :
    rerank_candidatesE (pys "q") [sampleCand 1]
      (fun _ => Except.error OllamaError.requestFailed) (fun _ => none) =
      Except.error OllamaError.requestFailed :=
  rerank_candidates_transport_error (pys "q") [sampleCand 1]
    (fun _ => Except.error OllamaError.requestFailed) (fun _ => none)
    OllamaError.requestFailed (by decide) rfl

lemma keepInRange_bounds {data : List PyJsonItem} {n : Nat} :
    ∀ x ∈ keepInRange data n, 1 ≤ x ∧ x ≤ (n : Int) := by
  intro x hx
  rcases List.mem_filterMap.mp hx with ⟨item, _, hit⟩
  cases item with
  | jint m =>
    simp only at hit
    by_cases hb : 1 ≤ m ∧ m ≤ (n : Int)
    · rw [if_pos hb] at hit
      cases hit
      exact hb
    · rw [if_neg hb] at hit
      cases hit
  | jother => cases hit

lemma parsedIds_bounds {data : List PyJsonItem} {n : Nat} :
    ∀ x ∈ parsedIds data n, 1 ≤ x ∧ x ≤ (n : Int) := fun x hx =>
  keepInRange_bounds x (dedupKeepFirst_subset _ [] x hx)

lemma dictGet_range_get : ∀ (cs : List CandidateChunk) (k : Nat) (i : Int),
    cs.map CandidateChunk.id =
      List.map (fun n : Nat => (n : Int)) (List.range' k cs.length) →
    (k : Int) ≤ i → i < (k : Int) + cs.length →
    dictGet cs i = cs[(i.toNat - k)]? := by
  intro cs
  induction cs with
  | nil =>
    intro k i _ h1 h2
    simp only [List.length_nil, Nat.cast_zero, add_zero] at h2
    omega
  | cons c rest ih =>
    intro k i h h1 h2
    rw [List.length_cons, List.range'_succ] at h
    simp only [List.map_cons] at h
    have hc : c.id = (k : Int) := (List.cons.injEq _ _ _ _ ▸ h).1
    have hrest : rest.map CandidateChunk.id =
        List.map (fun n : Nat => (n : Int)) (List.range' (k + 1) rest.length) :=
      (List.cons.injEq _ _ _ _ ▸ h).2
    have hne : ∀ r ∈ rest, r.id ≠ (k : Int) := by
      intro r hr heq
      have hmem : r.id ∈ rest.map CandidateChunk.id := List.mem_map_of_mem _ hr
      rw [hrest] at hmem
      rcases List.mem_map.mp hmem with ⟨m, hm, hme⟩
      have hge := (List.mem_range'_1.mp hm).1
      rw [← hme] at heq
      have : m = k := by exact_mod_cast heq
      omega
    by_cases hik : i = (k : Int)
    · subst hik
      rw [dictGet_cons_self hc hne]
      have hz : ((k : Int)).toNat - k = 0 := by omega
      rw [hz]
      exact (List.getElem?_cons_zero).symm
    · have hgt : (k : Int) + 1 ≤ i := by omega
      have hcne : c.id ≠ i := by
        rw [hc]
        exact fun heq => hik heq.symm
      rw [dictGet_cons_of_ne hcne]
      have hrec := ih (k + 1) i hrest (by exact_mod_cast hgt) (by
        rw [List.length_cons] at h2
        push_cast at h2 ⊢
        omega)
      rw [hrec]
      have hsplit : i.toNat - k = (i.toNat - (k + 1)) + 1 := by omega
      rw [hsplit, List.getElem?_cons_succ]

lemma dictGet_of_mem_ordered {cs : List CandidateChunk} {c : CandidateChunk}
    (hids : cs.map CandidateChunk.id = identityOrder cs.length)
    (hc : c ∈ cs) : dictGet cs c.id = some c := by
  have h := filterMap_dictGet_identity cs hids
  rw [← h] at hc
  rcases List.mem_filterMap.mp hc with ⟨i, _, hg⟩
  have hci := (dictGet_eq_some hg).2
  rw [hci]
  exact hg

/-- C4: For every non-empty candidate list with local ids 1..N in input
order, if the response parses to a JSON list with a non-empty in-range
filtered id list, `rerank_candidates` returns the candidates referenced by
the de-duplicated parsed ids (in parsed order, looked up by position), with
the unreferenced candidates appended after them in their original relative
input order. -/
theorem rerank_candidates_appends_missing (question : PyStr)
    (cs : List CandidateChunk) (chat : PyStr → PyStr)
    (jsonLoads : PyStr → ParsedResponse) (data : List PyJsonItem)
    (hne : cs ≠ [])
    (hids : cs.map CandidateChunk.id = identityOrder cs.length)
    (hdata : jsonLoads (chat (build_rerank_prompt question cs)) = some data)
    (hkeep : keepInRange data cs.length ≠ []) :
    (rerank_candidatesCounted question cs chat jsonLoads).fst =
      (parsedIds data cs.length).filterMap (fun i => cs[(i.toNat - 1)]?) ++
        cs.filter (fun c => decide (¬ c.id ∈ parsedIds data cs.length)) := by
  have hparse : parse_id_list (jsonLoads (chat (build_rerank_prompt question cs)))
      cs.length = parsedIds data cs.length := by
    rw [hdata]
    simp only [parse_id_list]
    rw [if_neg hkeep]
    rfl
  have hrr : rerankedList (jsonLoads (chat (build_rerank_prompt question cs))) cs =
      (parsedIds data cs.length).filterMap (fun i => cs[(i.toNat - 1)]?) := by
    unfold rerankedList
    rw [hparse]
    apply List.filterMap_congr
    intro i hi
    rcases parsedIds_bounds i hi with ⟨hb1, hb2⟩
    exact dictGet_range_get cs 1 i hids hb1 (by push_cast; omega)
  have hiff : ∀ c ∈ cs,
      (c ∈ rerankedList (jsonLoads (chat (build_rerank_prompt question cs))) cs ↔
        c.id ∈ parsedIds data cs.length) := by
    intro c hc
    constructor
    · intro hmem
      unfold rerankedList at hmem
      rw [hparse] at hmem
      rcases List.mem_filterMap.mp hmem with ⟨i, hi, hg⟩
      rw [(dictGet_eq_some hg).2]
      exact hi
    · intro hmem
      unfold rerankedList
      rw [hparse]
      exact List.mem_filterMap.mpr ⟨c.id, hmem, dictGet_of_mem_ordered hids hc⟩
  have hcore : rerank_core (jsonLoads (chat (build_rerank_prompt question cs))) cs =
      (parsedIds data cs.length).filterMap (fun i => cs[(i.toNat - 1)]?) ++
        cs.filter (fun c => decide (¬ c.id ∈ parsedIds data cs.length)) := by
    unfold rerank_core
    rw [if_neg hne]
    by_cases hlen : (rerankedList (jsonLoads (chat (build_rerank_prompt question cs))) cs).length <
        cs.length
    · rw [if_pos hlen]
      have hfe : cs.filter
          (fun c => decide (¬ c ∈ rerankedList (jsonLoads (chat (build_rerank_prompt question cs))) cs)) =
          cs.filter (fun c => decide (¬ c.id ∈ parsedIds data cs.length)) := by
        apply List.filter_congr
        intro c hc
        exact decide_eq_decide.mpr (not_congr (hiff c hc))
      rw [hfe, hrr]
    · rw [if_neg hlen]
      have hperm : (rerankedList (jsonLoads (chat (build_rerank_prompt question cs))) cs).Perm cs :=
        ((rerankedList_nodup _ cs).subperm (rerankedList_subset _ cs)).perm_of_length_le
          (Nat.le_of_not_lt hlen)
      have hfil : cs.filter (fun c => decide (¬ c.id ∈ parsedIds data cs.length)) = [] := by
        apply List.filter_eq_nil_iff.mpr
        intro c hc
        simp only [decide_eq_true_eq, not_not]
        exact (hiff c hc).mp (hperm.mem_iff.mpr hc)
      rw [hfil, List.append_nil, hrr]
  unfold rerank_candidatesCounted
  rw [if_neg hne]
  exact hcore

/-- Witness for C4: three candidates with the service returning a parse of
the JSON text of the array holding 3, 1, 2 gives the order C3, C1, C2. -/
theorem rerank_candidates_appends_missing_witness :
    (rerank_candidatesCounted (pys "q") [sampleCand 1, sampleCand 2, sampleCand 3]
        (fun _ => pys "[3, 1, 2]")
        (fun _ => some [PyJsonItem.jint 3, PyJsonItem.jint 1, PyJsonItem.jint 2])).fst =
      [sampleCand 3, sampleCand 1, sampleCand 2] := by
  have h := rerank_candidates_appends_missing (pys "q")
    [sampleCand 1, sampleCand 2, sampleCand 3]
    (fun _ => pys "[3, 1, 2]")
    (fun _ => some [PyJsonItem.jint 3, PyJsonItem.jint 1, PyJsonItem.jint 2])
    [PyJsonItem.jint 3, PyJsonItem.jint 1, PyJsonItem.jint 2]
    (by decide) (by decide) rfl (by decide)
  rw [h]
  decide

lemma sliceStep_currentWords (m o : Nat) (src : Option PyStr) (s : ChunkState) :
    (sliceStep m o src s).currentWords =
      (s.currentWords.take m).drop (m - o) ++ s.currentWords.drop m := rfl

lemma sliceStep_shrink {m o : Nat} (src : Option PyStr) {s : ChunkState}
    (h : m < s.currentWords.length) :
    (sliceStep m o src s).currentWords.length = s.currentWords.length - (m - o) := by
  rw [sliceStep_currentWords, List.length_append, List.length_drop,
    List.length_take, Nat.min_eq_left (Nat.le_of_lt h), List.length_drop]
  omega

lemma overflowLoop_noop {m o : Nat} (src : Option PyStr) {s : ChunkState}
    (h : ¬ m < s.currentWords.length) :
    ∀ fuel, overflowLoop m o src fuel s = s := by
  intro fuel
  cases fuel with
  | zero => rfl
  | succ n =>
    unfold overflowLoop
    rw [if_neg h]

lemma overflowLoop_adequate {m o : Nat} (src : Option PyStr) (hov : o < m) :
    ∀ (fuel : Nat) (s : ChunkState), s.currentWords.length ≤ fuel →
      (overflowLoop m o src fuel s).currentWords.length ≤ m := by
  intro fuel
  induction fuel with
  | zero =>
    intro s hs
    have : overflowLoop m o src 0 s = s := rfl
    rw [this]
    omega
  | succ n ih =>
    intro s hs
    unfold overflowLoop
    by_cases hg : m < s.currentWords.length
    · rw [if_pos hg]
      apply ih
      rw [sliceStep_shrink src hg]
      omega
    · rw [if_neg hg]
      omega

/-- C10: With `max_words ≥ 1` and `overlap_words < max_words`, every
iteration of the in-paragraph overflow-slicing loop of
`split_text_into_chunks` strictly shrinks the word buffer by exactly
`max_words − overlap_words` words, and the loop run with the fuel the
chunker gives it (the buffer length) always reaches its exit condition, so
`split_text_into_chunks` terminates. -/
theorem chunker_overflow_terminates (m o : Nat) (src : Option PyStr)
    (s : ChunkState) (hmax : 1 ≤ m) (hov : o < m) :
    (m < s.currentWords.length →
      (sliceStep m o src s).currentWords.length + (m - o) = s.currentWords.length) ∧
    (overflowLoop m o src s.currentWords.length s).currentWords.length ≤ m := by
  constructor
  · intro h
    rw [sliceStep_shrink src h]
    omega
  · exact overflowLoop_adequate src hov _ s (Nat.le_refl _)

/-- Witness for C10 at a five-word buffer with window 2 and overlap 1. -/
theorem chunker_overflow_terminates_witness :
    (1 ≤ 2 ∧ 1 < 2) ∧
    ((2 < (ChunkState.mk [] 0 [pys "a", pys "b", pys "c", pys "d", pys "e"]
        none none).currentWords.length →
      (sliceStep 2 1 none (ChunkState.mk [] 0 [pys "a", pys "b", pys "c", pys "d", pys "e"]
        none none)).currentWords.length + (2 - 1) =
        (ChunkState.mk [] 0 [pys "a", pys "b", pys "c", pys "d", pys "e"]
          none none).currentWords.length) ∧
    (overflowLoop 2 1 none
        (ChunkState.mk [] 0 [pys "a", pys "b", pys "c", pys "d", pys "e"]
          none none).currentWords.length
        (ChunkState.mk [] 0 [pys "a", pys "b", pys "c", pys "d", pys "e"]
          none none)).currentWords.length ≤ 2) :=
  ⟨by decide,
    chunker_overflow_terminates 2 1 none
      (ChunkState.mk [] 0 [pys "a", pys "b", pys "c", pys "d", pys "e"] none none)
      (by decide) (by decide)⟩

lemma pySplitAux_good : ∀ (s cur : PyStr), (∀ c ∈ cur, pyIsSpace c = false) →
    goodWords (pySplitAux s cur) := by
  intro s
  induction s with
  | nil =>
    intro cur hcur
    unfold pySplitAux
    by_cases h : cur = []
    · rw [if_pos h]
      intro w hw
      cases hw
    · rw [if_neg h]
      intro w hw
      rcases List.mem_singleton.mp hw with rfl
      refine ⟨by simpa using h, ?_⟩
      intro c hc
      exact hcur c (List.mem_reverse.mp hc)
  | cons c rest ih =>
    intro cur hcur
    unfold pySplitAux
    by_cases hc : pyIsSpace c
    · rw [if_pos hc]
      by_cases hcur0 : cur = []
      · rw [if_pos hcur0]
        exact ih [] (by simp)
      · rw [if_neg hcur0]
        intro w hw
        rcases List.mem_cons.mp hw with rfl | hw
        · refine ⟨by simpa using hcur0, ?_⟩
          intro d hd
          exact hcur d (List.mem_reverse.mp hd)
        · exact ih [] (by simp) w hw
    · rw [if_neg hc]
      apply ih
      intro d hd
      rcases List.mem_cons.mp hd with rfl | hd
      · simpa using hc
      · exact hcur d hd

lemma pySplit_good (s : PyStr) : goodWords (pySplit s) :=
  pySplitAux_good s [] (by simp)

lemma pySplitAux_ne_nil : ∀ (s cur : PyStr),
    ((∃ x ∈ s, pyIsSpace x = false) ∨ cur ≠ []) → pySplitAux s cur ≠ [] := by
  intro s
  induction s with
  | nil =>
    intro cur h
    rcases h with ⟨x, hx, _⟩ | h
    · cases hx
    · unfold pySplitAux
      rw [if_neg h]
      simp
  | cons c rest ih =>
    intro cur h
    unfold pySplitAux
    by_cases hc : pyIsSpace c
    · rw [if_pos hc]
      by_cases hcur0 : cur = []
      · rw [if_pos hcur0]
        apply ih
        left
        rcases h with ⟨x, hx, hxs⟩ | hcur
        · rcases List.mem_cons.mp hx with rfl | hx
          · rw [hc] at hxs
            cases hxs
          · exact ⟨x, hx, hxs⟩
        · exact absurd hcur0 hcur
      · rw [if_neg hcur0]
        simp
    · rw [if_neg hc]
      apply ih
      right
      simp

lemma pySplit_ne_nil {s : PyStr} (h : ∃ x ∈ s, pyIsSpace x = false) :
    pySplit s ≠ [] :=
  pySplitAux_ne_nil s [] (Or.inl h)

lemma mem_dropWhile_of_neg {p : Char → Bool} :
    ∀ {s : PyStr} {x : Char}, x ∈ s → p x = false → x ∈ s.dropWhile p := by
  intro s
  induction s with
  | nil =>
    intro x hx _
    cases hx
  | cons c rest ih =>
    intro x hx hpx
    by_cases hc : p c = true
    · rw [List.dropWhile_cons_of_pos hc]
      rcases List.mem_cons.mp hx with rfl | hx
      · rw [hpx] at hc
        cases hc
      · exact ih hx hpx
    · rw [List.dropWhile_cons_of_neg hc]
      exact hx

lemma mem_pyStrip_of_neg {s : PyStr} {x : Char} (hx : x ∈ s)
    (hpx : pyIsSpace x = false) : x ∈ pyStrip s := by
  unfold pyStrip pyRstrip pyLstrip
  apply List.mem_reverse.mpr
  apply mem_dropWhile_of_neg _ hpx
  apply List.mem_reverse.mpr
  exact mem_dropWhile_of_neg hx hpx

lemma mem_joinWith (sep : PyStr) :
    ∀ {ws : List PyStr} {w : PyStr} {x : Char}, w ∈ ws → x ∈ w →
      x ∈ joinWith sep ws := by
  intro ws
  induction ws with
  | nil =>
    intro w x hw _
    cases hw
  | cons w0 ws' ih =>
    intro w x hw hx
    cases ws' with
    | nil =>
      rcases List.mem_singleton.mp hw with rfl
      exact hx
    | cons w1 ws'' =>
      show x ∈ w0 ++ sep ++ joinWith sep (w1 :: ws'')
      rcases List.mem_cons.mp hw with rfl | hw
      · exact List.mem_append.mpr (Or.inl (List.mem_append.mpr (Or.inl hx)))
      · exact List.mem_append.mpr (Or.inr (ih hw hx))

lemma wordsContent_ne_nil {ws : List PyStr} (hg : goodWords ws) (hne : ws ≠ []) :
    wordsContent ws ≠ [] := by
  cases ws with
  | nil => exact absurd rfl hne
  | cons w0 ws' =>
    obtain ⟨hw0ne, hw0chars⟩ := hg w0 (List.mem_cons_self w0 ws')
    cases w0 with
    | nil => exact absurd rfl hw0ne
    | cons c w0' =>
      have hc := hw0chars c (List.mem_cons_self c w0')
      have hcmem : c ∈ joinWith (pys " ") ((c :: w0') :: ws') :=
        mem_joinWith _ (List.mem_cons_self _ _) (List.mem_cons_self c w0')
      exact List.ne_nil_of_mem (mem_pyStrip_of_neg hcmem hc)

lemma head_dropWhile_false {p : Char → Bool} :
    ∀ {s : PyStr} {c : Char} {r : PyStr}, s.dropWhile p = c :: r → p c = false := by
  intro s
  induction s with
  | nil =>
    intro c r h
    simp at h
  | cons a rest ih =>
    intro c r h
    by_cases ha : p a = true
    · rw [List.dropWhile_cons_of_pos ha] at h
      exact ih h
    · rw [List.dropWhile_cons_of_neg ha] at h
      rcases List.cons.injEq _ _ _ _ ▸ h with ⟨rfl, _⟩
      simpa using ha

lemma pyStrip_has_nonspace {s : PyStr} (h : pyStrip s ≠ []) :
    ∃ x ∈ pyStrip s, pyIsSpace x = false := by
  rcases hu : pyLstrip s with _ | ⟨c, u⟩
  · exfalso
    apply h
    unfold pyStrip
    rw [hu]
    rfl
  · have hc : pyIsSpace c = false := head_dropWhile_false hu
    have hcs : c ∈ s := by
      have hmem : c ∈ pyLstrip s := by
        rw [hu]
        exact List.mem_cons_self c u
      exact ((List.dropWhile_suffix pyIsSpace).sublist).subset hmem
    exact ⟨c, mem_pyStrip_of_neg hcs hc, hc⟩

lemma joined_current_nonspace {current : List PyStr}
    (hinv : ∀ e ∈ current, ∃ x ∈ e, pyIsSpace x = false) (hne : current ≠ []) :
    ∃ x ∈ pyStrip (joinWith (pys " ") current), pyIsSpace x = false := by
  cases current with
  | nil => exact absurd rfl hne
  | cons e cur' =>
    obtain ⟨x, hxe, hxs⟩ := hinv e (List.mem_cons_self e cur')
    have hxj : x ∈ joinWith (pys " ") (e :: cur') :=
      mem_joinWith _ (List.mem_cons_self _ _) hxe
    exact ⟨x, mem_pyStrip_of_neg hxj hxs, hxs⟩

lemma paragraphs_nonspace : ∀ (lines : List PyStr) (current : List PyStr),
    (∀ e ∈ current, ∃ x ∈ e, pyIsSpace x = false) →
    ∀ p ∈ splitParasAux current lines, ∃ x ∈ p, pyIsSpace x = false := by
  intro lines
  induction lines with
  | nil =>
    intro current hinv p hp
    unfold splitParasAux at hp
    by_cases h : current = []
    · rw [if_pos h] at hp
      cases hp
    · rw [if_neg h] at hp
      rcases List.mem_singleton.mp hp with rfl
      exact joined_current_nonspace hinv h
  | cons line rest ih =>
    intro current hinv p hp
    unfold splitParasAux at hp
    by_cases hblank : pyStrip line = []
    · rw [if_pos hblank] at hp
      by_cases hcur : current = []
      · rw [if_pos hcur] at hp
        exact ih [] (by simp) p hp
      · rw [if_neg hcur] at hp
        rcases List.mem_cons.mp hp with rfl | hp
        · exact joined_current_nonspace hinv hcur
        · exact ih [] (by simp) p hp
    · rw [if_neg hblank] at hp
      refine ih (current ++ [pyStrip line]) ?_ p hp
      intro e he
      rcases List.mem_append.mp he with he | he
      · exact hinv e he
      · rcases List.mem_singleton.mp he with rfl
        exact pyStrip_has_nonspace hblank

lemma split_into_paragraphs_nonspace {s : PyStr} :
    ∀ p ∈ split_into_paragraphs s, ∃ x ∈ p, pyIsSpace x = false :=
  paragraphs_nonspace (splitLines s) [] (by simp)

lemma para_words_ne_nil {s p : PyStr} (hp : p ∈ split_into_paragraphs s) :
    pySplit p ≠ [] :=
  pySplit_ne_nil (split_into_paragraphs_nonspace p hp)

lemma goodWords_of_subset {ws ws' : List PyStr} (h : ws' ⊆ ws)
    (hg : goodWords ws) : goodWords ws' :=
  fun w hw => hg w (h hw)

lemma goodWords_append {ws ws' : List PyStr} (h : goodWords ws)
    (h' : goodWords ws') : goodWords (ws ++ ws') := by
  intro w hw
  rcases List.mem_append.mp hw with hw | hw
  · exact h w hw
  · exact h' w hw

lemma flush_noop (src : Option PyStr) {s : ChunkState}
    (h : s.currentWords = []) : flush_current_chunk src s = s := by
  unfold flush_current_chunk
  rw [if_pos h]

lemma flush_emits (src : Option PyStr) (s : ChunkState)
    (hne : s.currentWords ≠ []) (hc : wordsContent s.currentWords ≠ []) :
    flush_current_chunk src s =
      { s with
        chunks := s.chunks ++ [⟨wordsContent s.currentWords,
          ⟨s.chunkIndex, pyOr s.currentStart 0,
            pyOr s.currentEnd
              (pyOr s.currentStart 0 + (wordsContent s.currentWords).length),
            src⟩⟩]
        chunkIndex := s.chunkIndex + 1
        currentWords := [] } := by
  simp only [flush_current_chunk, if_neg hne, if_neg hc]

lemma flush_chunks_content (src : Option PyStr) (s : ChunkState)
    (hne : s.currentWords ≠ []) (hc : wordsContent s.currentWords ≠ []) :
    (flush_current_chunk src s).chunks.map TextChunk.content =
      s.chunks.map TextChunk.content ++ [wordsContent s.currentWords] ∧
    (flush_current_chunk src s).chunks.length = s.chunks.length + 1 := by
  rw [flush_emits src s hne hc]
  simp

lemma paragraphStep_small (m o : Nat) (src : Option PyStr) (s : ChunkState)
    (p : PyStr) (off : Nat)
    (h : s.currentWords.length + (pySplit p).length ≤ m) :
    paragraphStep m o src s p off =
      { s with
        currentWords := s.currentWords ++ pySplit p
        currentStart := if s.currentWords = [] then some off else s.currentStart
        currentEnd := some (off + p.length) } := by
  have hcond : ¬ (s.currentWords ≠ [] ∧ m < s.currentWords.length + (pySplit p).length) := by
    rintro ⟨-, h2⟩
    omega
  have hlen : ¬ m < (s.currentWords ++ pySplit p).length := by
    rw [List.length_append]
    omega
  simp only [paragraphStep, if_neg hcond]
  by_cases h0 : s.currentWords = []
  · simp only [if_pos h0]
    rw [overflowLoop_noop src hlen]
  · simp only [if_neg h0]
    rw [overflowLoop_noop src hlen]

lemma paraOffsets_length : ∀ (ps : List PyStr) (pos : Nat),
    (paraOffsets pos ps).length = ps.length := by
  intro ps
  induction ps with
  | nil => intro pos; rfl
  | cons p rest ih =>
    intro pos
    unfold paraOffsets
    rw [List.length_cons, List.length_cons, ih]

lemma chunkFold_small (m o : Nat) (src : Option PyStr) :
    ∀ (paras : List PyStr) (offs : List Nat) (s : ChunkState),
      paras.length ≤ offs.length →
      s.currentWords.length + (paras.map (fun p => (pySplit p).length)).sum ≤ m →
      (((paras.zip offs).foldl
          (fun s po => paragraphStep m o src s po.fst po.snd) s).chunks = s.chunks ∧
       ((paras.zip offs).foldl
          (fun s po => paragraphStep m o src s po.fst po.snd) s).currentWords =
         s.currentWords ++ (paras.map pySplit).flatten) := by
  intro paras
  induction paras with
  | nil =>
    intro offs s _ _
    simp
  | cons p rest ih =>
    intro offs s hlen hsum
    cases offs with
    | nil => simp at hlen
    | cons off offs' =>
      rw [List.zip_cons_cons, List.foldl_cons]
      have hp : s.currentWords.length + (pySplit p).length ≤ m := by
        rw [List.map_cons, List.sum_cons] at hsum
        omega
      rw [paragraphStep_small m o src s p off hp]
      have hih := ih offs'
        { s with
          currentWords := s.currentWords ++ pySplit p
          currentStart := if s.currentWords = [] then some off else s.currentStart
          currentEnd := some (off + p.length) }
        (by simpa using Nat.le_of_succ_le_succ (by simpa using hlen))
        (by
          rw [List.map_cons, List.sum_cons] at hsum
          simp only [List.length_append]
          omega)
      obtain ⟨hch, hwd⟩ := hih
      refine ⟨hch, ?_⟩
      rw [hwd]
      simp only [List.map_cons, List.flatten_cons, List.append_assoc]

/-- C7: For every text consisting only of single-line paragraphs (no two
adjacent non-blank lines) whose total word count is at most `max_words`,
`split_text_into_chunks` returns exactly one chunk, whose content carries all
the words of the normalized text, in order. -/
theorem chunker_single_chunk (t : PyStr) (m o : Nat) (src : Option PyStr)
    (hne : split_into_paragraphs (normalize_text t) ≠ [])
    (hsingle : List.Chain' (fun l1 l2 => pyStrip l1 = [] ∨ pyStrip l2 = [])
      (splitLines (normalize_text t)))
    (htotal : ((split_into_paragraphs (normalize_text t)).map
      (fun p => (pySplit p).length)).sum ≤ m) :
    (split_text_into_chunks t m o src).length = 1 ∧
    (split_text_into_chunks t m o src).map TextChunk.content =
      [wordsContent (((split_into_paragraphs (normalize_text t)).map pySplit).flatten)] := by
  have hfold := chunkFold_small m o src (split_into_paragraphs (normalize_text t))
    (paraOffsets 0 (split_into_paragraphs (normalize_text t)))
    { chunks := [], chunkIndex := 0, currentWords := [],
      currentStart := none, currentEnd := none }
    (by rw [paraOffsets_length])
    (by simpa using htotal)
  obtain ⟨hch, hwd⟩ := hfold
  have hgood : goodWords
      (((split_into_paragraphs (normalize_text t)).map pySplit).flatten) := by
    intro w hw
    rcases List.mem_flatten.mp hw with ⟨l, hl, hwl⟩
    rcases List.mem_map.mp hl with ⟨p, hp, rfl⟩
    exact pySplit_good p w hwl
  have hfne : ((split_into_paragraphs (normalize_text t)).map pySplit).flatten ≠ [] := by
    cases hps : split_into_paragraphs (normalize_text t) with
    | nil => exact absurd hps hne
    | cons p0 rest =>
      have hw0 : pySplit p0 ≠ [] :=
        para_words_ne_nil (by rw [hps]; exact List.mem_cons_self p0 rest)
      rcases List.exists_mem_of_ne_nil _ hw0 with ⟨w, hw⟩
      apply List.ne_nil_of_mem
      exact List.mem_flatten.mpr ⟨pySplit p0,
        List.mem_map_of_mem _ (List.mem_cons_self p0 rest), hw⟩
  simp only [split_text_into_chunks]
  have hFne : (List.foldl (fun s po => paragraphStep m o src s po.fst po.snd)
      { chunks := [], chunkIndex := 0, currentWords := [],
        currentStart := none, currentEnd := none }
      ((split_into_paragraphs (normalize_text t)).zip
        (paraOffsets 0 (split_into_paragraphs (normalize_text t))))).currentWords ≠ [] := by
    rw [hwd]
    simpa using hfne
  have hgc : wordsContent (List.foldl (fun s po => paragraphStep m o src s po.fst po.snd)
      { chunks := [], chunkIndex := 0, currentWords := [],
        currentStart := none, currentEnd := none }
      ((split_into_paragraphs (normalize_text t)).zip
        (paraOffsets 0 (split_into_paragraphs (normalize_text t))))).currentWords ≠ [] := by
    rw [hwd]
    simpa using wordsContent_ne_nil hgood hfne
  obtain ⟨hmap, hlen⟩ := flush_chunks_content src _ hFne hgc
  constructor
  · rw [hlen, hch]
    rfl
  · rw [hmap, hch, hwd]
    simp

/-- Witness for C7: two short single-line paragraphs and a budget of ten
words yield one chunk with all four words. -/
theorem chunker_single_chunk_witness :
    (split_text_into_chunks (pys "a b\n\nc d") 10 2 none).length = 1 ∧
    (split_text_into_chunks (pys "a b\n\nc d") 10 2 none).map TextChunk.content =
      [wordsContent (((split_into_paragraphs (normalize_text (pys "a b\n\nc d"))).map
        pySplit).flatten)] :=
  chunker_single_chunk (pys "a b\n\nc d") 10 2 none
    (by decide)
    (by
      rw [show splitLines (normalize_text (pys "a b\n\nc d")) =
        [pys "a b", pys "", pys "c d"] from rfl]
      apply List.chain'_cons.mpr
      refine ⟨Or.inr (by decide), ?_⟩
      apply List.chain'_cons.mpr
      exact ⟨Or.inl (by decide), List.chain'_singleton _⟩)
    (by decide)

lemma paragraphStep_flush (m o : Nat) (src : Option PyStr) (s : ChunkState)
    (p : PyStr) (off : Nat)
    (hne : s.currentWords ≠ [])
    (hover : m < s.currentWords.length + (pySplit p).length)
    (hcontent : wordsContent s.currentWords ≠ [])
    (hfit : (pySplit p).length ≤ m) :
    paragraphStep m o src s p off =
      { chunks := s.chunks ++ [⟨wordsContent s.currentWords,
          ⟨s.chunkIndex, pyOr s.currentStart 0,
            pyOr s.currentEnd
              (pyOr s.currentStart 0 + (wordsContent s.currentWords).length),
            src⟩⟩]
        chunkIndex := s.chunkIndex + 1
        currentWords := pySplit p
        currentStart := some off
        currentEnd := some (off + p.length) } := by
  have hcond : s.currentWords ≠ [] ∧ m < s.currentWords.length + (pySplit p).length :=
    ⟨hne, hover⟩
  have hguard : ¬ m < (([] : List PyStr) ++ pySplit p).length := by
    rw [List.nil_append]
    omega
  simp only [paragraphStep, if_pos hcond]
  rw [flush_emits src s hne hcontent]
  simp only [if_pos rfl]
  rw [overflowLoop_noop src hguard]
  simp

lemma paragraphStep_small_mk (m o : Nat) (src : Option PyStr)
    (chs : List TextChunk) (ci : Nat) (ws : List PyStr) (st en : Option Nat)
    (p : PyStr) (off : Nat) (h : ws.length + (pySplit p).length ≤ m) :
    paragraphStep m o src ⟨chs, ci, ws, st, en⟩ p off =
      ⟨chs, ci, ws ++ pySplit p, if ws = [] then some off else st,
        some (off + p.length)⟩ :=
  (paragraphStep_small m o src ⟨chs, ci, ws, st, en⟩ p off h).trans rfl

lemma paragraphStep_flush_mk (m o : Nat) (src : Option PyStr)
    (chs : List TextChunk) (ci : Nat) (ws : List PyStr) (st en : Option Nat)
    (p : PyStr) (off : Nat)
    (hne : ws ≠ []) (hover : m < ws.length + (pySplit p).length)
    (hcontent : wordsContent ws ≠ []) (hfit : (pySplit p).length ≤ m) :
    paragraphStep m o src ⟨chs, ci, ws, st, en⟩ p off =
      ⟨chs ++ [⟨wordsContent ws,
          ⟨ci, pyOr st 0, pyOr en (pyOr st 0 + (wordsContent ws).length), src⟩⟩],
        ci + 1, pySplit p, some off, some (off + p.length)⟩ :=
  (paragraphStep_flush m o src ⟨chs, ci, ws, st, en⟩ p off hne hover hcontent hfit).trans rfl

lemma flush_map_content_mk (src : Option PyStr) (chs : List TextChunk) (ci : Nat)
    (ws : List PyStr) (st en : Option Nat)
    (hne : ws ≠ []) (hc : wordsContent ws ≠ []) :
    (flush_current_chunk src ⟨chs, ci, ws, st, en⟩).chunks.map TextChunk.content =
      chs.map TextChunk.content ++ [wordsContent ws] :=
  (flush_chunks_content src ⟨chs, ci, ws, st, en⟩ hne hc).1

/-- C5: When the next paragraph would push the current chunk over
`max_words`, the chunk is flushed and the next chunk starts with only the
triggering paragraph's words — no overlap is carried across a
paragraph-level boundary: a document of two paragraphs that each fit in
`max_words` but not together yields exactly the two paragraphs' word lists
as the two chunks. -/
theorem chunker_no_paragraph_overlap (t : PyStr) (m o : Nat) (src : Option PyStr)
    (pA pB : PyStr)
    (hps : split_into_paragraphs (normalize_text t) = [pA, pB])
    (hA : (pySplit pA).length ≤ m)
    (hB : (pySplit pB).length ≤ m)
    (hover : m < (pySplit pA).length + (pySplit pB).length) :
    (split_text_into_chunks t m o src).map TextChunk.content =
      [wordsContent (pySplit pA), wordsContent (pySplit pB)] := by
  have wsAne : pySplit pA ≠ [] := para_words_ne_nil (by rw [hps]; simp)
  have wsBne : pySplit pB ≠ [] := para_words_ne_nil (by rw [hps]; simp)
  have cAne : wordsContent (pySplit pA) ≠ [] :=
    wordsContent_ne_nil (pySplit_good pA) wsAne
  have cBne : wordsContent (pySplit pB) ≠ [] :=
    wordsContent_ne_nil (pySplit_good pB) wsBne
  simp only [split_text_into_chunks, hps, paraOffsets, List.zip_cons_cons,
    List.zip_nil_right, List.foldl_cons, List.foldl_nil]
  rw [paragraphStep_small_mk m o src [] 0 [] none none pA 0 (by simpa using hA)]
  rw [paragraphStep_flush_mk m o src [] 0 ([] ++ pySplit pA) (if ([] : List PyStr) = [] then some 0 else none) (some (0 + pA.length)) pB (0 + pA.length + 1)
    (by simpa using wsAne) (by simpa using hover) (by simpa using cAne)
    (by simpa using hB)]
  rw [flush_map_content_mk src _ _ _ _ _ wsBne cBne]
  simp

/-- Witness for C5: a 50-word paragraph followed by a 30-word paragraph with
`max_words = 60`, `overlap_words = 10` yields exactly two chunks, paragraph A
and paragraph B. -/
theorem chunker_no_paragraph_overlap_witness :
    (split_text_into_chunks
        (joinWith (pys " ") (List.replicate 50 (pys "w")) ++ pys "\n\n" ++
          joinWith (pys " ") (List.replicate 30 (pys "v")))
        60 10 none).map TextChunk.content =
      [wordsContent (pySplit (joinWith (pys " ") (List.replicate 50 (pys "w")))),
        wordsContent (pySplit (joinWith (pys " ") (List.replicate 30 (pys "v"))))] :=
  chunker_no_paragraph_overlap
    (joinWith (pys " ") (List.replicate 50 (pys "w")) ++ pys "\n\n" ++
      joinWith (pys " ") (List.replicate 30 (pys "v")))
    60 10 none
    (joinWith (pys " ") (List.replicate 50 (pys "w")))
    (joinWith (pys " ") (List.replicate 30 (pys "v")))
    (by decide) (by decide) (by decide) (by decide)

lemma sliceStep_emits_mk (m o : Nat) (src : Option PyStr)
    (chs : List TextChunk) (ci : Nat) (ws : List PyStr) (st en : Option Nat)
    (hc : wordsContent (ws.take m) ≠ []) :
    sliceStep m o src ⟨chs, ci, ws, st, en⟩ =
      ⟨chs ++ [⟨wordsContent (ws.take m),
          ⟨ci, pyOr st 0,
            pyOr en (pyOr st 0 + (wordsContent (ws.take m)).length), src⟩⟩],
        ci + 1, (ws.take m).drop (m - o) ++ ws.drop m, st, en⟩ := by
  simp only [sliceStep, if_neg hc]

lemma windowsFuel_ne_nil (m o : Nat) : ∀ (fuel : Nat) (ws : List PyStr),
    windowsFuel m o fuel ws ≠ [] := by
  intro fuel ws
  cases fuel with
  | zero => simp [windowsFuel]
  | succ n =>
    unfold windowsFuel
    by_cases h : m < ws.length
    · rw [if_pos h]
      simp
    · rw [if_neg h]
      simp

lemma getLastD_cons_of_ne_nil {α : Type} (a d : α) (l : List α) (h : l ≠ []) :
    (a :: l).getLastD d = l.getLastD d := by
  cases l with
  | nil => exact absurd rfl h
  | cons b l' => simp [List.getLastD_cons]

lemma dropLast_cons_of_ne_nil {α : Type} (a : α) (l : List α) (h : l ≠ []) :
    (a :: l).dropLast = a :: l.dropLast := by
  cases l with
  | nil => exact absurd rfl h
  | cons b l' => rfl

lemma getLastD_mem {α : Type} (d : α) : ∀ (l : List α), l ≠ [] → l.getLastD d ∈ l := by
  intro l
  induction l with
  | nil => intro h; exact absurd rfl h
  | cons a l' ih =>
    intro _
    cases l' with
    | nil => simp
    | cons b l'' =>
      rw [getLastD_cons_of_ne_nil a d _ (by simp)]
      exact List.mem_cons_of_mem a (ih (by simp))

lemma dropLast_append_getLastD {α : Type} (d : α) : ∀ (l : List α), l ≠ [] →
    l.dropLast ++ [l.getLastD d] = l := by
  intro l
  induction l with
  | nil => intro h; exact absurd rfl h
  | cons a l' ih =>
    intro _
    cases l' with
    | nil => rfl
    | cons b l'' =>
      rw [dropLast_cons_of_ne_nil a _ (by simp),
        getLastD_cons_of_ne_nil a d _ (by simp), List.cons_append, ih (by simp)]

lemma windowsFuel_mem_subset (m o : Nat) : ∀ (fuel : Nat) (ws w : List PyStr) (x : PyStr),
    w ∈ windowsFuel m o fuel ws → x ∈ w → x ∈ ws := by
  intro fuel
  induction fuel with
  | zero =>
    intro ws w x hw hx
    rcases List.mem_singleton.mp (by simpa [windowsFuel] using hw) with rfl
    exact hx
  | succ n ih =>
    intro ws w x hw hx
    unfold windowsFuel at hw
    by_cases hg : m < ws.length
    · rw [if_pos hg] at hw
      rcases List.mem_cons.mp hw with rfl | hw
      · exact List.take_subset _ _ hx
      · have hmem := ih _ w x hw hx
        rcases List.mem_append.mp hmem with h | h
        · exact List.take_subset _ _ (List.drop_subset _ _ h)
        · exact List.drop_subset _ _ h
    · rw [if_neg hg] at hw
      rcases List.mem_singleton.mp hw with rfl
      exact hx

lemma windowsFuel_getLastD_ne_nil (m o : Nat) : ∀ (fuel : Nat) (ws : List PyStr),
    ws ≠ [] → (windowsFuel m o fuel ws).getLastD [] ≠ [] := by
  intro fuel
  induction fuel with
  | zero =>
    intro ws h
    simpa [windowsFuel] using h
  | succ n ih =>
    intro ws h
    unfold windowsFuel
    by_cases hg : m < ws.length
    · rw [if_pos hg]
      rw [getLastD_cons_of_ne_nil _ _ _ (windowsFuel_ne_nil m o n _)]
      apply ih
      have hlen : 0 < ((ws.take m).drop (m - o) ++ ws.drop m).length := by
        rw [List.length_append, List.length_drop, List.length_drop,
          List.length_take, Nat.min_eq_left (Nat.le_of_lt hg)]
        omega
      exact List.length_pos.mp hlen
    · rw [if_neg hg]
      simpa using h

lemma overflowLoop_windows (m o : Nat) (src : Option PyStr) (hm : 1 ≤ m) :
    ∀ (fuel : Nat) (chs : List TextChunk) (ci : Nat) (ws : List PyStr)
      (st en : Option Nat), goodWords ws →
      ((overflowLoop m o src fuel ⟨chs, ci, ws, st, en⟩).chunks.map TextChunk.content =
        chs.map TextChunk.content ++
          ((windowsFuel m o fuel ws).dropLast.map wordsContent) ∧
       (overflowLoop m o src fuel ⟨chs, ci, ws, st, en⟩).currentWords =
         (windowsFuel m o fuel ws).getLastD []) := by
  intro fuel
  induction fuel with
  | zero =>
    intro chs ci ws st en _
    constructor
    · simp [windowsFuel, overflowLoop]
    · simp [windowsFuel, overflowLoop]
  | succ n ih =>
    intro chs ci ws st en hg
    unfold overflowLoop windowsFuel
    by_cases hguard : m < ws.length
    · rw [if_pos hguard, if_pos hguard]
      have hwne : ws ≠ [] := by
        intro h
        rw [h] at hguard
        simp at hguard
      have htne : ws.take m ≠ [] := by
        intro h
        rcases List.take_eq_nil_iff.mp h with h | h
        · omega
        · exact hwne h
      have hgt : goodWords (ws.take m) :=
        goodWords_of_subset (List.take_subset _ _) hg
      have hct : wordsContent (ws.take m) ≠ [] := wordsContent_ne_nil hgt htne
      rw [sliceStep_emits_mk m o src chs ci ws st en hct]
      have hg2 : goodWords ((ws.take m).drop (m - o) ++ ws.drop m) := by
        intro w hw
        rcases List.mem_append.mp hw with h | h
        · exact hg w (List.take_subset _ _ (List.drop_subset _ _ h))
        · exact hg w (List.drop_subset _ _ h)
      obtain ⟨ihc, ihw⟩ := ih
        (chs ++ [⟨wordsContent (ws.take m),
          ⟨ci, pyOr st 0,
            pyOr en (pyOr st 0 + (wordsContent (ws.take m)).length), src⟩⟩])
        (ci + 1) ((ws.take m).drop (m - o) ++ ws.drop m) st en hg2
      constructor
      · rw [ihc,
          dropLast_cons_of_ne_nil _ _ (windowsFuel_ne_nil m o n _),
          List.map_cons, List.map_append]
        simp
      · rw [ihw, getLastD_cons_of_ne_nil _ _ _ (windowsFuel_ne_nil m o n _)]
    · rw [if_neg hguard, if_neg hguard]
      constructor
      · simp
      · simp

lemma windowsFuel_head_cases (m o : Nat) : ∀ (fuel : Nat) (ws h : List PyStr),
    (windowsFuel m o fuel ws).head? = some h → h = ws ∨ h = ws.take m := by
  intro fuel ws h hh
  cases fuel with
  | zero =>
    left
    simpa [windowsFuel] using hh.symm
  | succ n =>
    unfold windowsFuel at hh
    by_cases hg : m < ws.length
    · rw [if_pos hg] at hh
      right
      simpa using hh.symm
    · rw [if_neg hg] at hh
      left
      simpa using hh.symm

lemma windowsFuel_chain (m o : Nat) (ho : o ≤ m) : ∀ (fuel : Nat) (ws : List PyStr),
    List.Chain' (fun w1 w2 => w1.length = m ∧ w1.drop (m - o) = w2.take o)
      (windowsFuel m o fuel ws) := by
  intro fuel
  induction fuel with
  | zero =>
    intro ws
    simp [windowsFuel]
  | succ n ih =>
    intro ws
    unfold windowsFuel
    by_cases hg : m < ws.length
    · rw [if_pos hg]
      apply List.chain'_cons'.mpr
      refine ⟨?_, ih _⟩
      intro y hy
      have hylen : ((ws.take m).drop (m - o)).length = o := by
        rw [List.length_drop, List.length_take, Nat.min_eq_left (Nat.le_of_lt hg)]
        omega
      have htake : ∀ z : List PyStr,
          z = (ws.take m).drop (m - o) ++ ws.drop m →
          z.take o = (ws.take m).drop (m - o) := by
        intro z hz
        rw [hz, List.take_append_of_le_length (by omega)]
        exact List.take_of_length_le (le_of_eq hylen)
      constructor
      · rw [List.length_take, Nat.min_eq_left (Nat.le_of_lt hg)]
      · rcases windowsFuel_head_cases m o n _ y (by simpa using hy) with rfl | rfl
        · exact (htake _ rfl).symm
        · rw [List.take_take, Nat.min_eq_left ho]
          exact (htake _ rfl).symm
    · rw [if_neg hg]
      simp

lemma paragraphStep_fresh_mk (m o : Nat) (src : Option PyStr)
    (chs : List TextChunk) (ci : Nat) (st en : Option Nat) (p : PyStr) (off : Nat) :
    paragraphStep m o src ⟨chs, ci, [], st, en⟩ p off =
      overflowLoop m o src ([] ++ pySplit p).length
        ⟨chs, ci, [] ++ pySplit p, some off, some (off + p.length)⟩ := rfl

/-- C6: For a document that is a single paragraph with more than `max_words`
words (with `0 < overlap_words < max_words`), the chunker's output is exactly
the sequence of overflow windows of the paragraph's word list, and in that
window sequence every window but the last has exactly `max_words` words while
every two consecutive windows share exactly `overlap_words` words at the
boundary: the last `overlap_words` words of one window are the first
`overlap_words` words of the next. -/
theorem chunker_overflow_slices_overlap (t : PyStr) (m o : Nat) (src : Option PyStr)
    (p : PyStr)
    (hps : split_into_paragraphs (normalize_text t) = [p])
    (hlong : m < (pySplit p).length)
    (ho1 : 0 < o) (ho2 : o < m) :
    (split_text_into_chunks t m o src).map TextChunk.content =
      (windows m o (pySplit p)).map wordsContent ∧
    List.Chain' (fun w1 w2 => w1.length = m ∧ w1.drop (m - o) = w2.take o)
      (windows m o (pySplit p)) := by
  have wsne : pySplit p ≠ [] := para_words_ne_nil (by rw [hps]; simp)
  have hg : goodWords (pySplit p) := pySplit_good p
  constructor
  · simp only [split_text_into_chunks, hps, paraOffsets, List.zip_cons_cons,
      List.zip_nil_right, List.foldl_cons, List.foldl_nil]
    rw [paragraphStep_fresh_mk]
    simp only [List.nil_append]
    obtain ⟨hlc, hlw⟩ := overflowLoop_windows m o src (by omega) (pySplit p).length
      [] 0 (pySplit p) (some 0) (some (0 + p.length)) hg
    have hlastne : (windowsFuel m o (pySplit p).length (pySplit p)).getLastD [] ≠ [] :=
      windowsFuel_getLastD_ne_nil m o _ _ wsne
    have hlastgood : goodWords
        ((windowsFuel m o (pySplit p).length (pySplit p)).getLastD []) := by
      intro w hw
      exact hg w (windowsFuel_mem_subset m o _ _ _ w
        (getLastD_mem _ _ (windowsFuel_ne_nil m o _ _)) hw)
    have hFne : (overflowLoop m o src (pySplit p).length
        ⟨[], 0, pySplit p, some 0, some (0 + p.length)⟩).currentWords ≠ [] := by
      rw [hlw]
      exact hlastne
    have hFc : wordsContent (overflowLoop m o src (pySplit p).length
        ⟨[], 0, pySplit p, some 0, some (0 + p.length)⟩).currentWords ≠ [] := by
      rw [hlw]
      exact wordsContent_ne_nil hlastgood hlastne
    obtain ⟨hmap, -⟩ := flush_chunks_content src
      (overflowLoop m o src (pySplit p).length
        ⟨[], 0, pySplit p, some 0, some (0 + p.length)⟩) hFne hFc
    rw [hmap, hlc, hlw]
    simp only [windows, List.map_nil, List.nil_append]
    have hconcat :
        ((windowsFuel m o (pySplit p).length (pySplit p)).dropLast.map wordsContent) ++
          [wordsContent ((windowsFuel m o (pySplit p).length (pySplit p)).getLastD [])] =
        ((windowsFuel m o (pySplit p).length (pySplit p)).dropLast ++
          [(windowsFuel m o (pySplit p).length (pySplit p)).getLastD []]).map wordsContent := by
      rw [List.map_append]
      rfl
    rw [hconcat, dropLast_append_getLastD [] _ (windowsFuel_ne_nil m o _ _)]
  · exact windowsFuel_chain m o (Nat.le_of_lt ho2) _ _

/-- Witness for C6 at a single eight-word paragraph with window 3 and
overlap 1. -/
theorem chunker_overflow_slices_overlap_witness :
    (split_text_into_chunks (pys "a b c d e f g h") 3 1 none).map TextChunk.content =
      (windows 3 1 (pySplit (pys "a b c d e f g h"))).map wordsContent ∧
    List.Chain' (fun w1 w2 => w1.length = 3 ∧ w1.drop (3 - 1) = w2.take 1)
      (windows 3 1 (pySplit (pys "a b c d e f g h"))) :=
  chunker_overflow_slices_overlap (pys "a b c d e f g h") 3 1 none
    (pys "a b c d e f g h") (by decide) (by decide) (by decide) (by decide)

/-- C8: If retrieval returns no rows, `file_search_qa` returns the fixed
"no relevant context" answer with an empty context list and makes zero calls
to the text-generation service, in both the rerank and the plain path. -/
theorem qa_empty_retrieval_short_circuit (useRerank : Bool) (question : PyStr)
    (topKFinal : Nat) (chat : PyStr → PyStr) (jsonLoads : PyStr → ParsedResponse) :
    file_search_qa useRerank question topKFinal [] chat jsonLoads =
      ({ answer := pys "No relevant context found.", context := [] }, 0) := by
  cases useRerank with
  | false => rfl
  | true => rfl

/-- Counterexample to C9 as stated: with `max_chars_per_chunk = 1` the block
that `build_context_from_rows` emits for a concrete one-row input is far
longer than `1` plus the ellipsis marker length, because a block also
carries its citation header line. -/
theorem context_block_exceeds_cap :
    ¬ ((rowBlock 1 sampleRow).length ≤ 1 + (pys "...").length) := by
  decide

lemma dropWhile_map_comm (f : Char → Char)
    (hf : ∀ c, pyIsSpace (f c) = pyIsSpace c) :
    ∀ s : PyStr, (s.map f).dropWhile pyIsSpace = (s.dropWhile pyIsSpace).map f := by
  intro s
  induction s with
  | nil => rfl
  | cons c rest ih =>
    rw [List.map_cons]
    by_cases hc : pyIsSpace c = true
    · rw [List.dropWhile_cons_of_pos (by rw [hf]; exact hc),
        List.dropWhile_cons_of_pos hc]
      exact ih
    · rw [List.dropWhile_cons_of_neg (by rw [hf]; simpa using hc),
        List.dropWhile_cons_of_neg hc, List.map_cons]

lemma pyStrip_map_comm (f : Char → Char)
    (hf : ∀ c, pyIsSpace (f c) = pyIsSpace c) (s : PyStr) :
    pyStrip (s.map f) = (pyStrip s).map f := by
  unfold pyStrip pyRstrip pyLstrip
  rw [dropWhile_map_comm f hf s, ← List.map_reverse, dropWhile_map_comm f hf,
    ← List.map_reverse]

/-- C9 amended: the chunk-text portion of every context block is the
newline-collapsed, whitespace-stripped content truncated to
`max_chars_per_chunk` characters with the ellipsis marker appended exactly
when the collapsed text is longer than the cap, and it never exceeds
`max_chars_per_chunk` plus the ellipsis length; the emitted block is that
text preceded by a citation header line, so the whole block may exceed the
cap by the header's length (the counterexample above). -/
theorem context_snippet_capped (maxChars : Nat) (r : Row) :
    rowBlock maxChars r = rowHeader r ++ pys "\n" ++ makeSnippet maxChars r.content ∧
    (makeSnippet maxChars r.content).length ≤ maxChars + (pys "...").length ∧
    makeSnippet maxChars r.content =
      (if maxChars < (pyStrip (r.content.map fun c => if c = '\n' then ' ' else c)).length
       then (pyStrip (r.content.map fun c => if c = '\n' then ' ' else c)).take maxChars
         ++ pys "..."
       else pyStrip (r.content.map fun c => if c = '\n' then ' ' else c)) := by
  have hcomm : pyStrip (r.content.map fun c => if c = '\n' then ' ' else c) =
      (pyStrip r.content).map fun c => if c = '\n' then ' ' else c := by
    apply pyStrip_map_comm
    intro c
    by_cases hc : c = '\n'
    · rw [hc]
      rfl
    · rw [if_neg hc]
  refine ⟨by simp [rowBlock, List.append_assoc], ?_, ?_⟩
  · unfold makeSnippet
    by_cases h : maxChars <
        ((pyStrip r.content).map fun c => if c = '\n' then ' ' else c).length
    · rw [if_pos h]
      rw [List.length_append, List.length_take]
      have : (pys "...").length = 3 := rfl
      omega
    · rw [if_neg h]
      omega
  · rw [hcomm]
    rfl

end FileSearcher
